import Mathlib

/-!
# B+ tree index of JiDB (`Prj3/src/bpt.cpp`)

A shallow embedding of the node codec, the search functions and the insertion and
deletion entry points of `bpt.cpp`, followed by theorems about them.

Conventions of the embedding.

* `table.h` and `bpt.h` are not part of the sources, so the types they declare are
  rendered as follows: `key_t` is `Int`, `value_t` is `Nat` (a payload that is only
  copied and never inspected), `pageid_t` is `Nat`, `off_t` is `Int`.  The casts
  `(uint64_t)` and `(off_t)` applied to offsets reinterpret the same 64 bits, so a raw
  page field holds the `off_t` value itself.
* A C array is a `List` holding every slot of the array, the unused ones included; its
  length is the capacity.  `Internal::key_ptr_pairs` has the 248 slots that the codec
  loops run over; the capacity of `Leaf::records` is the length of the list.
* `ORDER_LEAF` and `ORDER_INTERNAL` are constants of `bpt.h`; they are arguments.
* A function returns `none` where the C++ program has no defined result: a null or
  out-of-bounds access, a cast to the wrong node class, a page the disk manager cannot
  read, control reaching the end of a non-void function, or (for the functions that
  follow page references) the fuel running out.
* Object lifetime (`new` and `delete`) is not represented.
-/

namespace JiDB

abbrev key_t := Int
abbrev value_t := Nat
abbrev pageid_t := Nat
abbrev off_t := Int

/-- One `(key, value)` slot of a leaf. -/
structure Record where
  key : key_t
  value : value_t
deriving DecidableEq, Repr

/-- One `(key, child page id)` slot of an in-memory internal node. -/
structure KeyPtr where
  key : key_t
  nxt_page : pageid_t
deriving DecidableEq, Repr

/-- One `(key, child offset)` slot of an on-disk internal page. -/
structure KeyOff where
  key : key_t
  nxt_page : off_t
deriving DecidableEq, Repr

/-- Number of slots of `key_ptr_pairs` and `key_off_pairs`: the bound of the codec loops. -/
def INTERNAL_SLOTS : Nat := 248

/-- Common header of an on-disk page (`RAW_BPT_Page`). -/
structure RAW_BPT_Page where
  parent : off_t
  is_leaf : Bool
  num_of_keys : Nat
deriving DecidableEq, Repr

/-- On-disk leaf page. -/
structure RAW_Leaf_Page extends RAW_BPT_Page where
  right_sibling : off_t
  records : List Record
deriving DecidableEq, Repr

/-- On-disk internal page. -/
structure RAW_Internal_Page extends RAW_BPT_Page where
  leftmost_page : off_t
  key_off_pairs : { l : List KeyOff // l.length = INTERNAL_SLOTS }
deriving DecidableEq

/-- Fields of the base class `Node`. -/
structure Node where
  id : pageid_t
  parent : pageid_t
  is_leaf : Bool
  num_of_keys : Nat
deriving DecidableEq, Repr

/-- In-memory leaf node. -/
structure Leaf extends Node where
  right_sibling : pageid_t
  records : List Record
deriving DecidableEq, Repr

/-- In-memory internal node. -/
structure Internal extends Node where
  leftmost_page : pageid_t
  key_ptr_pairs : { l : List KeyPtr // l.length = INTERNAL_SLOTS }
deriving DecidableEq

/-- A page as the disk manager stores it: the bytes of one of the two raw layouts. -/
inductive page_t where
  | leaf (raw : RAW_Leaf_Page)
  | internal (raw : RAW_Internal_Page)
deriving DecidableEq

/-- The object behind a `Node *`: its dynamic class is `Leaf` or `Internal`. -/
inductive NodePtr where
  | leaf (obj : Leaf)
  | internal (obj : Internal)
deriving DecidableEq

/-- The disk manager, an external collaborator: the translation between page ids and
offsets, and the pages it currently stores. -/
structure DiskMgr where
  get_offset : pageid_t → off_t
  get_pageid : off_t → pageid_t
  pages : List (pageid_t × page_t)

/-- Reading a page by id (`DiskMgr::read`); `none` when no page is stored under the id. -/
def DiskMgr.read (dm : DiskMgr) (id : pageid_t) : Option page_t :=
  dm.pages.lookup id

/-- Writing a page under an id (`DiskMgr::write`): the page replaces what `read` returned. -/
def DiskMgr.write (dm : DiskMgr) (id : pageid_t) (page : page_t) : DiskMgr :=
  { dm with pages := (id, page) :: dm.pages }

/-- The tree handle: the root object (`none` for a null `root`) and the disk manager. -/
structure BPT where
  root : Option NodePtr
  disk_mgr : DiskMgr

/-! ## Node codec (lines 28-81) -/

/-- Constructor `RAW_BPT_Page(disk_mgr, node)`. -/
def RAW_BPT_Page.ctor (dm : DiskMgr) (node : Node) : RAW_BPT_Page :=
  { parent := dm.get_offset node.parent
    is_leaf := node.is_leaf
    num_of_keys := node.num_of_keys }

/-- Constructor `RAW_Leaf_Page(disk_mgr, leaf)`: the whole record array is copied. -/
def RAW_Leaf_Page.ctor (dm : DiskMgr) (leaf : Leaf) : RAW_Leaf_Page :=
  { toRAW_BPT_Page := RAW_BPT_Page.ctor dm leaf.toNode
    right_sibling := dm.get_offset leaf.right_sibling
    records := leaf.records }

/-- Constructor `RAW_Internal_Page(disk_mgr, internal)`: each of the 248 slots is
converted, its child page id becoming an offset. -/
def RAW_Internal_Page.ctor (dm : DiskMgr) (internal : Internal) :
    RAW_Internal_Page :=
  { toRAW_BPT_Page := RAW_BPT_Page.ctor dm internal.toNode
    leftmost_page := dm.get_offset internal.leftmost_page
    key_off_pairs :=
      ⟨internal.key_ptr_pairs.val.map
          (fun p => { key := p.key, nxt_page := dm.get_offset p.nxt_page }),
        by rw [List.length_map]; exact internal.key_ptr_pairs.property⟩ }

/-- Constructor `Node(disk_mgr, page, id)`. -/
def Node.ctor (dm : DiskMgr) (raw_page : RAW_BPT_Page) (id : pageid_t) : Node :=
  { id := id
    parent := dm.get_pageid raw_page.parent
    is_leaf := raw_page.is_leaf
    num_of_keys := raw_page.num_of_keys }

/-- Constructor `Leaf(disk_mgr, page, id)`. -/
def Leaf.ctor (dm : DiskMgr) (raw_leaf : RAW_Leaf_Page) (id : pageid_t) : Leaf :=
  { toNode := Node.ctor dm raw_leaf.toRAW_BPT_Page id
    right_sibling := dm.get_pageid raw_leaf.right_sibling
    records := raw_leaf.records }

/-- Constructor `Internal(disk_mgr, page, id)`. -/
def Internal.ctor (dm : DiskMgr) (raw_internal : RAW_Internal_Page) (id : pageid_t) :
    Internal :=
  { toNode := Node.ctor dm raw_internal.toRAW_BPT_Page id
    leftmost_page := dm.get_pageid raw_internal.leftmost_page
    key_ptr_pairs :=
      ⟨raw_internal.key_off_pairs.val.map
          (fun p => { key := p.key, nxt_page := dm.get_pageid p.nxt_page }),
        by rw [List.length_map]; exact raw_internal.key_off_pairs.property⟩ }

/-- The header of a stored page, read through `RAW_BPT_Page`. -/
def page_t.header : page_t → RAW_BPT_Page
  | .leaf raw => raw.toRAW_BPT_Page
  | .internal raw => raw.toRAW_BPT_Page

/-- Loading a node by id (`BPT::get_node`): the page is read and, by the `is_leaf` flag
of its header, decoded as a `Leaf` or as an `Internal`.  No other check is made.  A page
whose flag contradicts the layout its bytes were written in has no result here. -/
def BPT.get_node (dm : DiskMgr) (id : pageid_t) : Option NodePtr :=
  match dm.read id with
  | none => none
  | some (.leaf raw) =>
    if raw.is_leaf then some (.leaf (Leaf.ctor dm raw id)) else none
  | some (.internal raw) =>
    if raw.is_leaf then none else some (.internal (Internal.ctor dm raw id))

/-- Method `Leaf::write`: the leaf is encoded and stored under its own id. -/
def Leaf.write (page : Leaf) (dm : DiskMgr) : DiskMgr :=
  dm.write page.id (.leaf (RAW_Leaf_Page.ctor dm page))

/-- Method `Internal::write`: the node is encoded and stored under its own id. -/
def Internal.write (page : Internal) (dm : DiskMgr) : DiskMgr :=
  dm.write page.id (.internal (RAW_Internal_Page.ctor dm page))

/-! ## Search (lines 90-138) -/

/-- The loop of `std::lower_bound` over the positions `first .. first + len` with the
comparison `lhs.key < rhs`; `keyAt i` reads the key of slot `i`.  The first argument
bounds the iterations; `len` halves at every step, so `len` iterations suffice. -/
def lower_bound (keyAt : Nat → Option key_t) (val : key_t) : Nat → Nat → Nat → Option Nat
  | 0, first, _ => some first
  | fuel + 1, first, len =>
    if len = 0 then some first
    else
      match keyAt (first + len / 2) with
      | none => none
      | some k =>
        if k < val then lower_bound keyAt val fuel (first + len / 2 + 1) (len - len / 2 - 1)
        else lower_bound keyAt val fuel first (len / 2)

/-- Function `find_lower_bound_in_leaf`: lower bound of `key` among the first
`num_of_keys` records. -/
def BPT.find_lower_bound_in_leaf (page : Leaf) (key : key_t) : Option Nat :=
  lower_bound (fun i => (page.records[i]?).map Record.key) key page.num_of_keys 0 page.num_of_keys

/-- Function `find_lower_bound_in_internal`: lower bound of `key` among the first
`num_of_keys` pairs. -/
def BPT.find_lower_bound_in_internal (page : Internal) (key : key_t) : Option Nat :=
  lower_bound (fun i => (page.key_ptr_pairs.val[i]?).map KeyPtr.key) key
    page.num_of_keys 0 page.num_of_keys

/-- Function `find_child`: `(idx < 0) ? leftmost_page : key_ptr_pairs[idx].nxt_page`. -/
def BPT.find_child (page : Internal) (key : key_t) : Option pageid_t :=
  match BPT.find_lower_bound_in_internal page key with
  | none => none
  | some idx =>
    if (idx : Int) < 0 then some page.leftmost_page
    else (page.key_ptr_pairs.val[idx]?).map KeyPtr.nxt_page

/-- The descent loop of `_find`: while the current node is not a leaf, load the child
chosen by `find_child`.  The first argument bounds the number of page loads. -/
def BPT.find_leaf (dm : DiskMgr) (key : key_t) : Nat → NodePtr → Option Leaf
  | _, .leaf obj => if obj.is_leaf then some obj else none
  | 0, .internal _ => none
  | fuel + 1, .internal obj =>
    if obj.is_leaf then none
    else
      match BPT.find_child obj key with
      | none => none
      | some nxt_page =>
        match BPT.get_node dm nxt_page with
        | none => none
        | some child => BPT.find_leaf dm key fuel child

/-- The leaf part of `_find` (lines 102-111): `some v` when the record at the lower
bound is occupied and carries `key`, the null pointer `none` otherwise. -/
def BPT.find_in_leaf (leaf : Leaf) (key : key_t) : Option (Option value_t) :=
  match BPT.find_lower_bound_in_leaf leaf key with
  | none => none
  | some idx =>
    if idx ≠ leaf.num_of_keys then
      match leaf.records[idx]? with
      | none => none
      | some r => if r.key = key then some (some r.value) else some none
    else some none

/-- Function `_find`: the outer `Option` is `none` when the call has no defined result,
the inner one is the returned pointer (`none` for `nullptr`, that is not-found). -/
def BPT._find (fuel : Nat) (t : BPT) (key : key_t) : Option (Option value_t) :=
  match t.root with
  | none => some none
  | some root =>
    match BPT.find_leaf t.disk_mgr key fuel root with
    | none => none
    | some leaf => BPT.find_in_leaf leaf key

/-! ## Insertion and deletion (lines 140-203) -/

/-- The shift loop of `insert_into_leaf`: `std::for_each` visits the records from the
position given first onwards, in increasing order, `count` of them, and copies each
visited record over its right neighbour (`memcpy(&record + 1, &record, ...)`). -/
def shift_records : List Record → Nat → Nat → Option (List Record)
  | records, _, 0 => some records
  | records, i, count + 1 =>
    match records[i]? with
    | none => none
    | some r =>
      if i + 1 < records.length then shift_records (records.set (i + 1) r) (i + 1) count
      else none

/-- The three ways through the body of `insert_into_leaf`. -/
inductive LeafBranch where
  | duplicate
  | split
  | in_place
deriving DecidableEq, Repr

/-- The branch `insert_into_leaf` takes: `duplicate` when `records[idx].key == key`,
otherwise `split` when `num_of_keys == ORDER_LEAF`, otherwise `in_place`. -/
def BPT.insert_into_leaf_branch (ORDER_LEAF : Nat) (page : Leaf) (key : key_t) :
    Option LeafBranch :=
  match BPT.find_lower_bound_in_leaf page key with
  | none => none
  | some idx =>
    match page.records[idx]? with
    | none => none
    | some r =>
      if r.key = key then some .duplicate
      else if page.num_of_keys = ORDER_LEAF then some .split
      else some .in_place

/-- Function `insert_into_leaf`.  The result is the leaf object after the call, the disk
manager after the call and the returned `KeyPtr *` (`none` for `nullptr`).  The split
branch only allocates a page and computes two local integers, then control reaches the
end of the function without a return statement: it has no result.  In the other branch
the records are shifted, the new record is stored at `idx` and the leaf is written;
`num_of_keys` is not assigned. -/
def BPT.insert_into_leaf (ORDER_LEAF : Nat) (dm : DiskMgr) (page : Leaf) (key : key_t)
    (value : value_t) : Option (Leaf × DiskMgr × Option KeyPtr) :=
  match BPT.find_lower_bound_in_leaf page key, BPT.insert_into_leaf_branch ORDER_LEAF page key with
  | some _, some .duplicate => some (page, dm, none)
  | some _, some .split => none
  | some idx, some .in_place =>
    match shift_records page.records idx (page.num_of_keys - idx) with
    | none => none
    | some shifted =>
      if idx < shifted.length then
        let written : Leaf := { page with records := shifted.set idx { key := key, value := value } }
        some (written, written.write dm, none)
      else none
  | _, _ => none

/-- Function `insert_into_internal`: the child chosen by `find_child` is loaded and the
insertion continues in it; the node itself is never changed and `nullptr` is returned.
The first argument bounds the depth of the recursion. -/
def BPT.insert_into_internal (ORDER_LEAF ORDER_INTERNAL : Nat) :
    Nat → DiskMgr → Internal → key_t → value_t → Option (DiskMgr × Option KeyPtr)
  | 0, _, _, _, _ => none
  | fuel + 1, dm, page, key, value =>
    match BPT.find_child page key with
    | none => none
    | some child_id =>
      match BPT.get_node dm child_id with
      | none => none
      | some child =>
        let from_child : Option (DiskMgr × Option KeyPtr) :=
          match child with
          | .leaf obj =>
            if obj.is_leaf then
              (BPT.insert_into_leaf ORDER_LEAF dm obj key value).map (fun r => (r.2.1, r.2.2))
            else none
          | .internal obj =>
            if obj.is_leaf then none
            else BPT.insert_into_internal ORDER_LEAF ORDER_INTERNAL fuel dm obj key value
        match from_child with
        | none => none
        | some (dm1, some _) =>
          if page.num_of_keys = ORDER_INTERNAL then
            match BPT.find_lower_bound_in_internal page key with
            | none => none
            | some _ => some (dm1, none)
          else some (dm1, none)
        | some (dm1, none) => some (dm1, none)

/-- Function `_insert`: the tree after the call and the returned `int`.  A null `root`
is dereferenced, which has no result.  The body of `if (key_ptr_from_root)` is empty. -/
def BPT._insert (ORDER_LEAF ORDER_INTERNAL fuel : Nat) (t : BPT) (key : key_t)
    (value : value_t) : Option (BPT × Int) :=
  match t.root with
  | none => none
  | some (.leaf obj) =>
    if obj.is_leaf then
      match BPT.insert_into_leaf ORDER_LEAF t.disk_mgr obj key value with
      | none => none
      | some (obj1, dm1, _) => some ({ root := some (.leaf obj1), disk_mgr := dm1 }, 0)
    else none
  | some (.internal obj) =>
    if obj.is_leaf then none
    else
      match BPT.insert_into_internal ORDER_LEAF ORDER_INTERNAL fuel t.disk_mgr obj key value with
      | none => none
      | some (dm1, _) => some ({ root := some (.internal obj), disk_mgr := dm1 }, 0)

/-- Function `_delete`: the body is `return 0;`. -/
def BPT._delete (t : BPT) (_key : key_t) : BPT × Int :=
  (t, 0)

/-! ## Predicates of the data model -/

/-- The occupied records of a leaf: the first `num_of_keys` slots. -/
def Leaf.occupied (page : Leaf) : List Record :=
  page.records.take page.num_of_keys

/-- The keys of the occupied records of a leaf, in slot order. -/
def Leaf.keys (page : Leaf) : List key_t :=
  page.occupied.map Record.key

/-- A sorted leaf: the keys of its occupied records are strictly increasing. -/
@[reducible]
def Leaf.sorted (page : Leaf) : Prop :=
  page.keys.Pairwise (fun a b => a < b)

/-- The occupied pairs of an internal node: the first `num_of_keys` slots. -/
def Internal.occupied (page : Internal) : List KeyPtr :=
  page.key_ptr_pairs.val.take page.num_of_keys

/-- The separators of an internal node, in slot order. -/
def Internal.keys (page : Internal) : List key_t :=
  page.occupied.map KeyPtr.key

/-- The page id of the object behind a `Node *`. -/
def NodePtr.id : NodePtr → pageid_t
  | .leaf obj => obj.id
  | .internal obj => obj.id

/-- Whether `k` lies in the half-open range from `lo` to `hi`, a missing bound being
no bound. -/
def key_in_range (lo hi : Option key_t) (k : key_t) : Bool :=
  (match lo with
    | none => true
    | some a => decide (a ≤ k)) &&
  (match hi with
    | none => true
    | some b => decide (k < b))

/-- Well-formedness of a subtree as the data model words it: the keys of every node are
strictly increasing and lie in the range of the subtree, the leftmost child of an
internal node holds only keys below the first separator, and the child paired with a
separator holds only keys from that separator up to the next one (up to the bound of
the node for the last pair).  The first argument bounds the depth. -/
def well_formed (dm : DiskMgr) : Nat → NodePtr → Option key_t → Option key_t → Bool
  | _, .leaf obj, lo, hi =>
    obj.is_leaf && decide obj.sorted && obj.keys.all (key_in_range lo hi)
  | 0, .internal _, _, _ => false
  | fuel + 1, .internal obj, lo, hi =>
    let upper : List (Option key_t) := (obj.keys.drop 1).map some ++ [hi]
    !obj.is_leaf && decide (obj.keys.Pairwise (fun a b => a < b)) &&
    obj.keys.all (key_in_range lo hi) &&
    (match BPT.get_node dm obj.leftmost_page with
      | none => false
      | some child => well_formed dm fuel child lo ((obj.keys.map some ++ [hi]).head?.join)) &&
    (obj.occupied.zip upper).all (fun pu =>
      match BPT.get_node dm pu.1.nxt_page with
      | none => false
      | some child => well_formed dm fuel child (some pu.1.key) pu.2)

/-- The leaf flag and the key count of a page header. -/
def page_t.is_leaf_count (page : page_t) : Bool × Nat :=
  (page.header.is_leaf, page.header.num_of_keys)

/-- The least number of keys of a non-root node of the given order: `⌈ORDER/2⌉ - 1`. -/
def min_keys (ORDER : Nat) : Nat := (ORDER + 1) / 2 - 1

/-- The fan-out bounds on a page header: between `⌈ORDER/2⌉ - 1` and `ORDER - 1` keys,
`ORDER` being `ORDER_LEAF` for a leaf and `ORDER_INTERNAL` for an internal node. -/
def fan_out_ok (ORDER_LEAF ORDER_INTERNAL : Nat) (header : RAW_BPT_Page) : Prop :=
  if header.is_leaf then
    min_keys ORDER_LEAF ≤ header.num_of_keys ∧ header.num_of_keys ≤ ORDER_LEAF - 1
  else
    min_keys ORDER_INTERNAL ≤ header.num_of_keys ∧ header.num_of_keys ≤ ORDER_INTERNAL - 1

instance (ORDER_LEAF ORDER_INTERNAL : Nat) (header : RAW_BPT_Page) :
    Decidable (fan_out_ok ORDER_LEAF ORDER_INTERNAL header) := by
  unfold fan_out_ok
  exact inferInstance

/-- The fan-out invariant of a tree: every stored page other than the page of the root
satisfies the fan-out bounds. -/
def BPT.fan_out_invariant (ORDER_LEAF ORDER_INTERNAL : Nat) (t : BPT) : Prop :=
  ∀ id page, t.disk_mgr.read id = some page → t.root.map NodePtr.id ≠ some id →
    fan_out_ok ORDER_LEAF ORDER_INTERNAL page.header

/-! ## Example inputs -/

/-- A disk manager with 4096-byte pages and nothing stored. -/
def example_disk_mgr : DiskMgr :=
  { get_offset := fun p => 4096 * (p : Int)
    get_pageid := fun o => (o / 4096).toNat
    pages := [] }

/-- A leaf object with the given id, parent, key count and slots, the flag set. -/
def example_leaf (id parent num_of_keys : Nat) (records : List Record) : Leaf :=
  { id := id, parent := parent, is_leaf := true, num_of_keys := num_of_keys
    right_sibling := 0, records := records }

/-- An empty leaf with 31 slots, all unused. -/
def leaf_empty : Leaf :=
  example_leaf 1 0 0 (List.replicate 31 { key := 0, value := 0 })

/-- A leaf with 31 slots holding the keys 10, 20 and 30. -/
def leaf_10_20_30 : Leaf :=
  example_leaf 1 0 3
    ([{ key := 10, value := 100 }, { key := 20, value := 200 }, { key := 30, value := 300 }]
      ++ List.replicate 28 { key := 0, value := 0 })

/-- A leaf with 4 slots holding the keys 5, 10 and 20. -/
def leaf_5_10_20 : Leaf :=
  example_leaf 1 0 3
    [{ key := 5, value := 50 }, { key := 10, value := 100 }, { key := 20, value := 200 },
      { key := 0, value := 0 }]

/-- A leaf with 4 slots, all occupied, holding the keys 5, 10, 20 and 25. -/
def leaf_5_10_20_25 : Leaf :=
  example_leaf 1 0 4
    [{ key := 5, value := 50 }, { key := 10, value := 100 }, { key := 20, value := 200 },
      { key := 25, value := 250 }]

/-- The left leaf of the two-leaf tree: page 1, holding key 5. -/
def two_leaf_left : Leaf :=
  example_leaf 1 3 1 ({ key := 5, value := 50 } :: List.replicate 30 { key := 0, value := 0 })

/-- The right leaf of the two-leaf tree: page 2, holding key 10. -/
def two_leaf_right : Leaf :=
  example_leaf 2 3 1 ({ key := 10, value := 100 } :: List.replicate 30 { key := 0, value := 0 })

/-- The root of the two-leaf tree: page 3, one separator 10, leftmost child page 1, the
child paired with the separator page 2. -/
def two_leaf_root : Internal :=
  { id := 3, parent := 0, is_leaf := false, num_of_keys := 1, leftmost_page := 1
    key_ptr_pairs :=
      ⟨{ key := 10, nxt_page := 2 } :: List.replicate 247 { key := 0, nxt_page := 0 },
        by rw [List.length_cons, List.length_replicate]; rfl⟩ }

/-- The two-leaf tree, its three nodes written to the disk. -/
def two_leaf_tree : BPT :=
  { root := some (.internal two_leaf_root)
    disk_mgr := two_leaf_root.write (two_leaf_right.write (two_leaf_left.write example_disk_mgr)) }

/-- A tree whose root is the given leaf object, nothing stored on disk. -/
def leaf_tree (root : Leaf) : BPT :=
  { root := some (.leaf root), disk_mgr := example_disk_mgr }

/-- The base-class part of the object behind a `Node *`. -/
def NodePtr.toNode : NodePtr → Node
  | .leaf obj => obj.toNode
  | .internal obj => obj.toNode

/-- Whether the leaf flag of a stored page agrees with the layout of its bytes.  The
flag is what selects the layout the bytes of a page are read through, so every page
there is satisfies this: bytes with the flag set are a `.leaf` value, bytes with the
flag clear are an `.internal` value, and the two other combinations stand for no
page. -/
def page_t.flag_matches_layout : page_t → Bool
  | .leaf raw => raw.is_leaf
  | .internal raw => !raw.is_leaf

/-- The node object a stored page decodes to under an id, by the two arms of the
conditional of `get_node`: `new Leaf(*disk_mgr, page, id)` for a leaf page,
`new Internal(*disk_mgr, page, id)` for an internal page. -/
def page_t.decode (dm : DiskMgr) (id : pageid_t) : page_t → NodePtr
  | .leaf raw => .leaf (Leaf.ctor dm raw id)
  | .internal raw => .internal (Internal.ctor dm raw id)

/-- A leaf page with 31 record slots whose header claims 40 keys and whose first two
keys, 30 and 10, are out of order. -/
def corrupt_leaf_page : RAW_Leaf_Page :=
  { parent := 0, is_leaf := true, num_of_keys := 40, right_sibling := 0
    records :=
      [{ key := 30, value := 300 }, { key := 10, value := 100 }]
        ++ List.replicate 29 { key := 0, value := 0 } }

/-- A disk manager storing the corrupt leaf page under id 1. -/
def corrupt_disk_mgr : DiskMgr :=
  example_disk_mgr.write 1 (.leaf corrupt_leaf_page)

/-! ## Auxiliary lemmas -/

set_option maxRecDepth 100000

/-- The search loop returns when every slot below `n` is readable, and its result lies
in the searched range. -/
theorem lower_bound_bounds (keyAt : Nat → Option key_t) (val : key_t) (n : Nat)
    (hread : ∀ i, i < n → ∃ k, keyAt i = some k) :
    ∀ fuel first len, len ≤ fuel → first + len ≤ n →
      ∃ r, lower_bound keyAt val fuel first len = some r ∧ first ≤ r ∧ r ≤ first + len := by
  intro fuel
  induction fuel with
  | zero =>
    intro first len hlen _
    exact ⟨first, by simp [lower_bound], le_refl _, by omega⟩
  | succ fuel ih =>
    intro first len hlen hn
    by_cases h0 : len = 0
    · exact ⟨first, by simp [lower_bound, h0], le_refl _, by omega⟩
    · have hhalf : len / 2 < len := Nat.div_lt_self (Nat.pos_of_ne_zero h0) (by decide)
      obtain ⟨k, hk⟩ := hread (first + len / 2) (by omega)
      by_cases hlt : k < val
      · obtain ⟨r, hr, h1, h2⟩ := ih (first + len / 2 + 1) (len - len / 2 - 1) (by omega) (by omega)
        exact ⟨r, by simp [lower_bound, h0, hk, hlt, hr], by omega, by omega⟩
      · obtain ⟨r, hr, h1, h2⟩ := ih first (len / 2) (by omega) (by omega)
        exact ⟨r, by simp [lower_bound, h0, hk, hlt, hr], by omega, by omega⟩

/-- On readable, non-decreasing keys the search loop returns the partition point: every
key before it is less than `val`, every key from it on is not. -/
theorem lower_bound_partition (keyAt : Nat → Option key_t) (val : key_t) (n : Nat)
    (hread : ∀ i, i < n → ∃ k, keyAt i = some k)
    (hmono : ∀ i j, i ≤ j → j < n → ∀ ki kj, keyAt i = some ki → keyAt j = some kj → ki ≤ kj) :
    ∀ fuel first len, len ≤ fuel → first + len ≤ n →
      (∀ i, i < first → ∀ k, keyAt i = some k → k < val) →
      (∀ i, first + len ≤ i → i < n → ∀ k, keyAt i = some k → val ≤ k) →
      ∃ r, lower_bound keyAt val fuel first len = some r ∧ r ≤ n ∧
        (∀ i, i < r → ∀ k, keyAt i = some k → k < val) ∧
        (∀ i, r ≤ i → i < n → ∀ k, keyAt i = some k → val ≤ k) := by
  intro fuel
  induction fuel with
  | zero =>
    intro first len hlen hn hlo hhi
    have h0 : len = 0 := by omega
    subst h0
    exact ⟨first, by simp [lower_bound], by omega, hlo, fun i hi => hhi i (by omega)⟩
  | succ fuel ih =>
    intro first len hlen hn hlo hhi
    by_cases h0 : len = 0
    · subst h0
      exact ⟨first, by simp [lower_bound], by omega, hlo, fun i hi => hhi i (by omega)⟩
    · have hhalf : len / 2 < len := Nat.div_lt_self (Nat.pos_of_ne_zero h0) (by decide)
      obtain ⟨k, hk⟩ := hread (first + len / 2) (by omega)
      by_cases hlt : k < val
      · obtain ⟨r, hr, h1, h2, h3⟩ := ih (first + len / 2 + 1) (len - len / 2 - 1)
          (by omega) (by omega)
          (fun i hi ki hki =>
            lt_of_le_of_lt (hmono i (first + len / 2) (by omega) (by omega) ki k hki hk) hlt)
          (fun i hi hin => hhi i (by omega) hin)
        exact ⟨r, by simp [lower_bound, h0, hk, hlt, hr], h1, h2, h3⟩
      · obtain ⟨r, hr, h1, h2, h3⟩ := ih first (len / 2) (by omega) (by omega) hlo
          (fun i hi hin ki hki =>
            le_trans (not_lt.mp hlt) (hmono (first + len / 2) i (by omega) hin k ki hk hki))
        exact ⟨r, by simp [lower_bound, h0, hk, hlt, hr], h1, h2, h3⟩

/-- Every occupied slot of a leaf whose key count is within its array is readable. -/
theorem Leaf.keyAt_read (page : Leaf) (hcap : page.num_of_keys ≤ page.records.length) :
    ∀ i, i < page.num_of_keys → ∃ k, (page.records[i]?).map Record.key = some k := by
  intro i hi
  have hlt : i < page.records.length := by omega
  exact ⟨(page.records[i]).key, by simp [List.getElem?_eq_getElem hlt]⟩

/-- In a sorted leaf the keys of the occupied slots increase strictly with the index. -/
theorem Leaf.keyAt_strict (page : Leaf) (hs : page.sorted)
    (hcap : page.num_of_keys ≤ page.records.length) :
    ∀ i j, i < j → j < page.num_of_keys → ∀ ki kj,
      (page.records[i]?).map Record.key = some ki →
      (page.records[j]?).map Record.key = some kj → ki < kj := by
  intro i j hij hj ki kj hki hkj
  have hlen : page.keys.length = page.num_of_keys := by
    simp [Leaf.keys, Leaf.occupied, Nat.min_eq_left hcap]
  have hi1 : i < page.records.length := by omega
  have hj1 : j < page.records.length := by omega
  have h := (List.pairwise_iff_getElem.mp hs) i j (by omega) (by omega) hij
  simp only [Leaf.keys, Leaf.occupied, List.getElem_map, List.getElem_take] at h
  simp only [List.getElem?_eq_getElem hi1, Option.map_some', Option.some.injEq] at hki
  simp only [List.getElem?_eq_getElem hj1, Option.map_some', Option.some.injEq] at hkj
  rw [← hki, ← hkj]
  exact h

/-- On strictly increasing keys the lower bound of a key that occurs is its own index. -/
theorem lower_bound_eq_of_mem (keyAt : Nat → Option key_t) (val : key_t) (n : Nat)
    (hread : ∀ i, i < n → ∃ k, keyAt i = some k)
    (hstrict : ∀ i j, i < j → j < n → ∀ ki kj, keyAt i = some ki → keyAt j = some kj → ki < kj)
    (i : Nat) (hi : i < n) (hk : keyAt i = some val) :
    lower_bound keyAt val n 0 n = some i := by
  have hmono : ∀ a b, a ≤ b → b < n → ∀ ka kb, keyAt a = some ka → keyAt b = some kb →
      ka ≤ kb := by
    intro a b hab hb ka kb hka hkb
    rcases Nat.eq_or_lt_of_le hab with h | h
    · subst h
      rw [hka] at hkb
      exact le_of_eq (Option.some.inj hkb)
    · exact le_of_lt (hstrict a b h hb ka kb hka hkb)
  obtain ⟨r, hr, hrn, hlo, hhi⟩ := lower_bound_partition keyAt val n hread hmono n 0 n
    (le_refl _) (by omega) (fun i hi => absurd hi (Nat.not_lt_zero i))
    (fun i h1 h2 => absurd h2 (by omega))
  have h1 : r ≤ i := by
    by_contra hc
    exact lt_irrefl val (hlo i (by omega) val hk)
  have h2 : ¬ r < i := by
    intro hc
    obtain ⟨kr, hkr⟩ := hread r (by omega)
    have ha := hhi r (le_refl _) (by omega) kr hkr
    have hb := hstrict r i hc hi kr val hkr hk
    exact lt_irrefl val (lt_of_le_of_lt ha hb)
  have : r = i := by omega
  rw [hr, this]

/-- An occupied record sits in a slot below the key count. -/
theorem Leaf.occupied_getElem? (page : Leaf) (r : Record) (h : r ∈ page.occupied) :
    ∃ i, i < page.num_of_keys ∧ page.records[i]? = some r := by
  obtain ⟨i, hi⟩ := List.getElem?_of_mem h
  rw [Leaf.occupied, List.getElem?_take] at hi
  by_cases hlt : i < page.num_of_keys
  · exact ⟨i, hlt, by simpa [hlt] using hi⟩
  · simp [hlt] at hi

/-- In a sorted leaf the lower bound of the key of an occupied record is its slot. -/
theorem find_lower_bound_in_leaf_of_mem (page : Leaf) (hs : page.sorted)
    (hcap : page.num_of_keys ≤ page.records.length) (i : Nat) (hi : i < page.num_of_keys)
    (r : Record) (hr : page.records[i]? = some r) :
    BPT.find_lower_bound_in_leaf page r.key = some i := by
  unfold BPT.find_lower_bound_in_leaf
  exact lower_bound_eq_of_mem _ r.key page.num_of_keys (Leaf.keyAt_read page hcap)
    (Leaf.keyAt_strict page hs hcap) i hi (by simp [hr])

/-- The shift loop returns, and keeps the length, when the slot after the last visited
record exists. -/
theorem shift_records_some : ∀ (count : Nat) (records : List Record) (i : Nat),
    i + count < records.length →
    ∃ s, shift_records records i count = some s ∧ s.length = records.length := by
  intro count
  induction count with
  | zero =>
    intro records i _
    exact ⟨records, by simp [shift_records], rfl⟩
  | succ count ih =>
    intro records i h
    have hi : i < records.length := by omega
    obtain ⟨s, hs, hlen⟩ := ih (records.set (i + 1) records[i]) (i + 1)
      (by rw [List.length_set]; omega)
    refine ⟨s, ?_, by rw [hlen, List.length_set]⟩
    have h1 : i + 1 < records.length := by omega
    simp [shift_records, List.getElem?_eq_getElem hi, h1, hs]

/-- With a free slot and a key count other than `ORDER_LEAF`, `insert_into_leaf` returns
and its `KeyPtr *` is null. -/
theorem insert_into_leaf_returns (ORDER_LEAF : Nat) (dm : DiskMgr) (page : Leaf) (k : key_t)
    (v : value_t) (hcap : page.num_of_keys < page.records.length)
    (hroom : page.num_of_keys ≠ ORDER_LEAF) :
    ∃ written dm1, BPT.insert_into_leaf ORDER_LEAF dm page k v = some (written, dm1, none) := by
  obtain ⟨idx, hidx, _, hle⟩ := lower_bound_bounds
    (fun i => (page.records[i]?).map Record.key) k page.num_of_keys
    (Leaf.keyAt_read page (le_of_lt hcap)) page.num_of_keys 0 page.num_of_keys
    (le_refl _) (by omega)
  have hlt : idx < page.records.length := by omega
  have hfind : BPT.find_lower_bound_in_leaf page k = some idx := hidx
  by_cases hdup : (page.records[idx]).key = k
  · exact ⟨page, dm, by
      simp [BPT.insert_into_leaf, BPT.insert_into_leaf_branch, hfind,
        List.getElem?_eq_getElem hlt, hdup]⟩
  · obtain ⟨s, hs, hlen⟩ := shift_records_some (page.num_of_keys - idx) page.records idx
      (by omega)
    have hlt2 : idx < s.length := by omega
    let written : Leaf := { page with records := s.set idx { key := k, value := v } }
    exact ⟨written, written.write dm, by
      simp [BPT.insert_into_leaf, BPT.insert_into_leaf_branch, hfind,
        List.getElem?_eq_getElem hlt, hdup, hroom, hs, hlt2, written]⟩

/-- What a returning `insert_into_leaf` does: it returns `nullptr`, keeps the base-class
fields of the leaf, and either leaves the disk alone or writes the leaf once. -/
theorem insert_into_leaf_effect (ORDER_LEAF : Nat) (dm : DiskMgr) (page : Leaf) (k : key_t)
    (v : value_t) (written : Leaf) (dm1 : DiskMgr) (kp : Option KeyPtr)
    (h : BPT.insert_into_leaf ORDER_LEAF dm page k v = some (written, dm1, kp)) :
    kp = none ∧ written.toNode = page.toNode ∧ (dm1 = dm ∨ dm1 = written.write dm) := by
  unfold BPT.insert_into_leaf at h
  split at h
  · simp only [Option.some.injEq, Prod.mk.injEq] at h
    obtain ⟨h1, h2, h3⟩ := h
    subst h1 h2 h3
    exact ⟨rfl, rfl, Or.inl rfl⟩
  · simp at h
  · split at h
    · simp at h
    · split at h
      · simp only [Option.some.injEq, Prod.mk.injEq] at h
        obtain ⟨h1, h2, h3⟩ := h
        subst h1 h2 h3
        exact ⟨rfl, rfl, Or.inr rfl⟩
      · simp at h
  · simp at h

/-- Reading after a write. -/
theorem DiskMgr.read_write (dm : DiskMgr) (id : pageid_t) (page : page_t) (id1 : pageid_t) :
    (dm.write id page).read id1 = if id1 = id then some page else dm.read id1 := by
  unfold DiskMgr.read DiskMgr.write
  by_cases h : id1 = id
  · subst h
    simp [List.lookup_cons]
  · have hb : (id1 == id) = false := by simpa using h
    simp [List.lookup_cons, hb, h]

/-- A leaf object returned by `get_node` is the decoding of the leaf page stored under
the id. -/
theorem get_node_leaf (dm : DiskMgr) (id : pageid_t) (obj : Leaf)
    (h : BPT.get_node dm id = some (.leaf obj)) :
    ∃ raw, dm.read id = some (.leaf raw) ∧ obj = Leaf.ctor dm raw id := by
  unfold BPT.get_node at h
  split at h
  · simp at h
  · rename_i raw hread
    split at h
    · simp only [Option.some.injEq, NodePtr.leaf.injEq] at h
      exact ⟨raw, hread, h.symm⟩
    · simp at h
  · split at h <;> simp at h

/-- Inserting into a leaf loaded from the disk changes the leaf flag and key count of no
stored page. -/
theorem insert_into_leaf_headers (ORDER_LEAF : Nat) (dm : DiskMgr) (id : pageid_t) (obj : Leaf)
    (k : key_t) (v : value_t) (r : Leaf × DiskMgr × Option KeyPtr)
    (hget : BPT.get_node dm id = some (.leaf obj))
    (h : BPT.insert_into_leaf ORDER_LEAF dm obj k v = some r) :
    r.2.2 = none ∧ ∀ id1, (r.2.1.read id1).map page_t.is_leaf_count
      = (dm.read id1).map page_t.is_leaf_count := by
  obtain ⟨written, dm1, kp⟩ := r
  obtain ⟨hkp, hnode, hdm⟩ := insert_into_leaf_effect ORDER_LEAF dm obj k v written dm1 kp h
  refine ⟨hkp, ?_⟩
  intro id1
  rcases hdm with hdm | hdm
  · simp [hdm]
  · obtain ⟨raw, hread, hobj⟩ := get_node_leaf dm id obj hget
    have hid : written.id = id := by
      have : written.toNode.id = obj.toNode.id := by rw [hnode]
      rw [hobj] at this
      exact this
    simp only [hdm, Leaf.write, DiskMgr.read_write, hid]
    by_cases hc : id1 = id
    · subst hc
      simp only [if_true, hread, Option.map_some', Option.some.injEq]
      have h1 : written.toNode.is_leaf = obj.toNode.is_leaf := by rw [hnode]
      have h2 : written.toNode.num_of_keys = obj.toNode.num_of_keys := by rw [hnode]
      rw [hobj] at h1 h2
      simp only [page_t.is_leaf_count, page_t.header, RAW_Leaf_Page.ctor, RAW_BPT_Page.ctor]
      exact Prod.ext h1 h2
    · simp [hc]

/-- A returning `insert_into_internal` changes the leaf flag and key count of no stored
page. -/
theorem insert_into_internal_headers (ORDER_LEAF ORDER_INTERNAL : Nat) :
    ∀ (fuel : Nat) (dm : DiskMgr) (page : Internal) (k : key_t) (v : value_t)
      (r : DiskMgr × Option KeyPtr),
      BPT.insert_into_internal ORDER_LEAF ORDER_INTERNAL fuel dm page k v = some r →
      ∀ id1, (r.1.read id1).map page_t.is_leaf_count
        = (dm.read id1).map page_t.is_leaf_count := by
  intro fuel
  induction fuel with
  | zero =>
    intro dm page k v r h
    simp [BPT.insert_into_internal] at h
  | succ fuel ih =>
    intro dm page k v r h
    unfold BPT.insert_into_internal at h
    split at h
    · simp at h
    · rename_i child_id _
      split at h
      · simp at h
      · rename_i child hget
        have tail : ∀ fc : Option (DiskMgr × Option KeyPtr),
            (match fc with
              | none => none
              | some (dm1, some _) =>
                if page.num_of_keys = ORDER_INTERNAL then
                  match BPT.find_lower_bound_in_internal page k with
                  | none => none
                  | some _ => some (dm1, none)
                else some (dm1, none)
              | some (dm1, none) => some (dm1, none)) = some r →
            ∃ kp, fc = some (r.1, kp) := by
          intro fc hfc
          rcases fc with _ | ⟨dm1, _ | kp⟩
          · simp at hfc
          · simp only [Option.some.injEq] at hfc
            exact ⟨none, by rw [← hfc]⟩
          · simp only at hfc
            split at hfc
            · split at hfc
              · simp at hfc
              · simp only [Option.some.injEq] at hfc
                exact ⟨some kp, by rw [← hfc]⟩
            · simp only [Option.some.injEq] at hfc
              exact ⟨some kp, by rw [← hfc]⟩
        cases child with
        | leaf obj =>
          obtain ⟨kp, hfc⟩ := tail _ h
          dsimp only at hfc
          split at hfc
          · cases hins : BPT.insert_into_leaf ORDER_LEAF dm obj k v with
            | none => simp [hins] at hfc
            | some r1 =>
              simp only [hins, Option.map_some', Option.some.injEq, Prod.mk.injEq] at hfc
              rw [← hfc.1]
              exact (insert_into_leaf_headers ORDER_LEAF dm child_id obj k v r1 hget hins).2
          · simp at hfc
        | internal obj =>
          obtain ⟨kp, hfc⟩ := tail _ h
          dsimp only at hfc
          split at hfc
          · simp at hfc
          · exact ih dm obj k v (r.1, kp) hfc

/-- The fan-out bounds depend on the leaf flag and the key count only. -/
theorem fan_out_ok_congr (ORDER_LEAF ORDER_INTERNAL : Nat) (p q : page_t)
    (h : p.is_leaf_count = q.is_leaf_count)
    (hq : fan_out_ok ORDER_LEAF ORDER_INTERNAL q.header) :
    fan_out_ok ORDER_LEAF ORDER_INTERNAL p.header := by
  simp only [page_t.is_leaf_count, Prod.mk.injEq] at h
  unfold fan_out_ok at hq ⊢
  rw [h.1, h.2]
  exact hq

/-- The two-leaf tree satisfies the fan-out invariant for orders 4 and 4. -/
theorem two_leaf_tree_fan_out : two_leaf_tree.fan_out_invariant 4 4 := by
  intro id page hread hroot
  simp only [two_leaf_tree, Internal.write, Leaf.write, DiskMgr.read_write] at hread
  have hne : id ≠ 3 := by
    intro hc
    apply hroot
    rw [hc]
    rfl
  split at hread
  · rename_i h3
    exact absurd h3 hne
  · split at hread
    · simp only [Option.some.injEq] at hread
      rw [← hread]
      decide
    · split at hread
      · simp only [Option.some.injEq] at hread
        rw [← hread]
        decide
      · simp [example_disk_mgr, DiskMgr.read] at hread

/-- In a leaf whose occupied keys are pairwise related by `R`, the keys of two occupied
slots are related in the order of their indices. -/
theorem Leaf.keyAt_pairwise (R : key_t → key_t → Prop) (page : Leaf)
    (hs : page.keys.Pairwise R) (hcap : page.num_of_keys ≤ page.records.length) :
    ∀ i j, i < j → j < page.num_of_keys → ∀ ki kj,
      (page.records[i]?).map Record.key = some ki →
      (page.records[j]?).map Record.key = some kj → R ki kj := by
  intro i j hij hj ki kj hki hkj
  have hlen : page.keys.length = page.num_of_keys := by
    simp [Leaf.keys, Leaf.occupied, Nat.min_eq_left hcap]
  have hi1 : i < page.records.length := by omega
  have hj1 : j < page.records.length := by omega
  have h := (List.pairwise_iff_getElem.mp hs) i j (by omega) (by omega) hij
  simp only [Leaf.keys, Leaf.occupied, List.getElem_map, List.getElem_take] at h
  simp only [List.getElem?_eq_getElem hi1, Option.map_some', Option.some.injEq] at hki
  simp only [List.getElem?_eq_getElem hj1, Option.map_some', Option.some.injEq] at hkj
  rw [← hki, ← hkj]
  exact h

/-- When every key of the searched range is less than `val`, the search loop returns the
end of the range. -/
theorem lower_bound_all_lt (keyAt : Nat → Option key_t) (val : key_t) :
    ∀ fuel first len, len ≤ fuel →
      (∀ i, first ≤ i → i < first + len → ∃ k, keyAt i = some k ∧ k < val) →
      lower_bound keyAt val fuel first len = some (first + len) := by
  intro fuel
  induction fuel with
  | zero =>
    intro first len hlen _
    have h0 : len = 0 := by omega
    simp [lower_bound, h0]
  | succ fuel ih =>
    intro first len hlen hall
    by_cases h0 : len = 0
    · simp [lower_bound, h0]
    · have hhalf : len / 2 < len := Nat.div_lt_self (Nat.pos_of_ne_zero h0) (by decide)
      obtain ⟨k, hk, hlt⟩ := hall (first + len / 2) (by omega) (by omega)
      have hrec := ih (first + len / 2 + 1) (len - len / 2 - 1) (by omega)
        (fun i h1 h2 => hall i (by omega) (by omega))
      have heq : first + len / 2 + 1 + (len - len / 2 - 1) = first + len := by omega
      simp [lower_bound, h0, hk, hlt, hrec, heq]

/-- A record read from a slot below the key count is an occupied record. -/
theorem Leaf.mem_occupied_of_getElem? (page : Leaf) (i : Nat) (r : Record)
    (hi : i < page.num_of_keys) (hr : page.records[i]? = some r) : r ∈ page.occupied := by
  apply List.getElem?_mem (n := i)
  show (page.records.take page.num_of_keys)[i]? = some r
  rw [List.getElem?_take_of_lt hi]
  exact hr

/-- The lower bound of any key in a leaf whose key count is within its array is an index
up to the key count. -/
theorem find_lower_bound_in_leaf_le (page : Leaf) (k : key_t)
    (hcap : page.num_of_keys ≤ page.records.length) :
    ∃ idx, BPT.find_lower_bound_in_leaf page k = some idx ∧ idx ≤ page.num_of_keys := by
  obtain ⟨idx, hidx, _, hle⟩ := lower_bound_bounds
    (fun i => (page.records[i]?).map Record.key) k page.num_of_keys
    (Leaf.keyAt_read page hcap) page.num_of_keys 0 page.num_of_keys (le_refl _) (by omega)
  exact ⟨idx, hidx, by omega⟩

/-- C1: on a tree that is well formed per the data model, `_find` is claimed to return
the value of every key held by a leaf.  The two-leaf tree (separator 10, leftmost child
holding key 5, paired child holding key 10) is well formed, its leftmost child holds
key 5 among its occupied records, and `_find` reports not-found for 5: `find_child`
follows the child paired with the lower bound and never the leftmost child. -/
theorem find_misses_key_of_leftmost_child :
    well_formed two_leaf_tree.disk_mgr 1 (.internal two_leaf_root) none none = true ∧
    BPT.get_node two_leaf_tree.disk_mgr two_leaf_root.leftmost_page
      = some (.leaf two_leaf_left) ∧
    ({ key := 5, value := 50 } : Record) ∈ two_leaf_left.occupied ∧
    BPT._find 1 two_leaf_tree 5 = some none := by
  decide

/-- C2: after `_insert(k, v)` into a sorted leaf root with room, `_find(k)` is claimed to
return `v` and every key present before to keep its value.  Inserting 5 into the empty
leaf leaves the key count at 0, so `_find(5)` reports not-found; inserting 5 into the
leaf holding 10, 20, 30 overwrites the records of 20 and 30 with copies of the record
of 10, so `_find(20)`, which returned 200 before, reports not-found. -/
theorem insert_then_find_reports_not_found :
    leaf_empty.sorted ∧ leaf_10_20_30.sorted ∧
    (5 : key_t) ∉ leaf_empty.keys ∧
    (BPT._insert 32 249 1 (leaf_tree leaf_empty) 5 7).map (fun r => BPT._find 1 r.1 5)
      = some (some none) ∧
    (5 : key_t) ∉ leaf_10_20_30.keys ∧
    BPT._find 1 (leaf_tree leaf_10_20_30) 20 = some (some 200) ∧
    (BPT._insert 32 249 1 (leaf_tree leaf_10_20_30) 5 7).map (fun r => BPT._find 1 r.1 20)
      = some (some none) := by
  decide

/-- C3: after `insert_into_leaf` on a sorted leaf with room the occupied keys are claimed
to be strictly increasing again.  The leaf holding 10, 20, 30 is sorted and has room;
after inserting 5 its occupied keys are 5, 10, 10, which are not strictly increasing. -/
theorem insert_into_leaf_breaks_key_order :
    leaf_10_20_30.sorted ∧ leaf_10_20_30.num_of_keys + 1 < 32 ∧
    leaf_10_20_30.num_of_keys < leaf_10_20_30.records.length ∧
    (BPT.insert_into_leaf 32 example_disk_mgr leaf_10_20_30 5 7).map (fun r => r.1.keys)
      = some [5, 10, 10] ∧
    (BPT.insert_into_leaf 32 example_disk_mgr leaf_10_20_30 5 7).map
      (fun r => decide r.1.sorted) = some false := by
  decide

/-- C4: duplicate rejection performs no mutation.  For every sorted leaf whose occupied
records contain key `k` with value `v`, and every value `v2`, `insert_into_leaf(k, v2)`
returns `nullptr` and leaves the leaf (records and key count) and the disk unchanged,
and the lookup of `k` in the leaf still yields `v`. -/
theorem insert_into_leaf_duplicate_no_mutation (ORDER_LEAF : Nat) (dm : DiskMgr) (page : Leaf)
    (k : key_t) (v v2 : value_t) (hs : page.sorted)
    (hcap : page.num_of_keys ≤ page.records.length)
    (hmem : ({ key := k, value := v } : Record) ∈ page.occupied) :
    BPT.insert_into_leaf ORDER_LEAF dm page k v2 = some (page, dm, none) ∧
      BPT.find_in_leaf page k = some (some v) := by
  obtain ⟨i, hi, hr⟩ := Leaf.occupied_getElem? page _ hmem
  have hidx := find_lower_bound_in_leaf_of_mem page hs hcap i hi _ hr
  simp only at hidx
  constructor
  · simp [BPT.insert_into_leaf, BPT.insert_into_leaf_branch, hidx, hr]
  · simp [BPT.find_in_leaf, hidx, hr, Nat.ne_of_lt hi]

/-- Witness of C4: the leaf holding 10, 20, 30 rejects a second insertion of key 20. -/
theorem insert_into_leaf_duplicate_no_mutation_witness :
    leaf_10_20_30.sorted ∧ leaf_10_20_30.num_of_keys ≤ leaf_10_20_30.records.length ∧
    ({ key := 20, value := 200 } : Record) ∈ leaf_10_20_30.occupied ∧
    (BPT.insert_into_leaf 32 example_disk_mgr leaf_10_20_30 20 7
        = some (leaf_10_20_30, example_disk_mgr, none) ∧
      BPT.find_in_leaf leaf_10_20_30 20 = some (some 200)) :=
  ⟨by decide, by decide, by decide,
    insert_into_leaf_duplicate_no_mutation 32 example_disk_mgr leaf_10_20_30 20 200 7
      (by decide) (by decide) (by decide)⟩

/-- C5 as stated fails: the result of `_insert` is claimed to tell a duplicate from an
insertion.  Key 20 is present in the leaf holding 10, 20, 30 and key 5 is absent, and
`_insert` returns 0 for both. -/
theorem insert_result_same_for_present_and_absent_key :
    (20 : key_t) ∈ leaf_10_20_30.keys ∧ (5 : key_t) ∉ leaf_10_20_30.keys ∧
    (BPT._insert 32 249 1 (leaf_tree leaf_10_20_30) 20 7).map Prod.snd = some 0 ∧
    (BPT._insert 32 249 1 (leaf_tree leaf_10_20_30) 5 7).map Prod.snd = some 0 := by
  decide

/-- C5 amended: for every tree whose root is a leaf with a free slot and whose key count
differs from `ORDER_LEAF`, and for every key and value, `_insert` returns, and the value
it returns is 0, whether or not the key was already present. -/
theorem insert_returns_zero_for_leaf_root (ORDER_LEAF ORDER_INTERNAL fuel : Nat)
    (dm : DiskMgr) (page : Leaf) (k : key_t) (v : value_t)
    (hflag : page.is_leaf = true) (hcap : page.num_of_keys < page.records.length)
    (hroom : page.num_of_keys ≠ ORDER_LEAF) :
    ∃ t1, BPT._insert ORDER_LEAF ORDER_INTERNAL fuel { root := some (.leaf page), disk_mgr := dm }
      k v = some (t1, 0) := by
  obtain ⟨written, dm1, h⟩ := insert_into_leaf_returns ORDER_LEAF dm page k v hcap hroom
  exact ⟨{ root := some (.leaf written), disk_mgr := dm1 }, by simp [BPT._insert, hflag, h]⟩

/-- Witness of C5 amended: inserting the present key 20 into the leaf holding 10, 20, 30. -/
theorem insert_returns_zero_for_leaf_root_witness :
    leaf_10_20_30.is_leaf = true ∧ leaf_10_20_30.num_of_keys < leaf_10_20_30.records.length ∧
    leaf_10_20_30.num_of_keys ≠ 32 ∧
    ∃ t1, BPT._insert 32 249 1 { root := some (.leaf leaf_10_20_30), disk_mgr := example_disk_mgr }
      20 7 = some (t1, 0) :=
  ⟨by decide, by decide, by decide,
    insert_returns_zero_for_leaf_root 32 249 1 example_disk_mgr leaf_10_20_30 20 7
      (by decide) (by decide) (by decide)⟩

/-- C6: after `_delete(k)` of a present key, `_find(k)` is claimed to report not-found.
Key 20 is found with value 200 in the leaf holding 10, 20, 30; after `_delete(20)` it is
still found with value 200, and `_delete` returns 0 for the present key 20 and for the
absent key 5 alike. -/
theorem delete_then_find_still_finds :
    BPT._find 1 (leaf_tree leaf_10_20_30) 20 = some (some 200) ∧
    BPT._find 1 (BPT._delete (leaf_tree leaf_10_20_30) 20).1 20 = some (some 200) ∧
    (BPT._delete (leaf_tree leaf_10_20_30) 20).2 = 0 ∧
    (BPT._delete (leaf_tree leaf_10_20_30) 5).2 = 0 := by
  decide

/-- C7: codec round trip.  When the disk manager maps every page reference back to itself
(`get_pageid(get_offset(p)) = p`), decoding the page that encodes a leaf, under the id of
the leaf, gives back the leaf, and likewise for an internal node: parent, leaf flag, key
count, right sibling or leftmost child, and every record or key/child slot agree. -/
theorem codec_round_trip (dm : DiskMgr) (h : ∀ p, dm.get_pageid (dm.get_offset p) = p) :
    (∀ leaf : Leaf, Leaf.ctor dm (RAW_Leaf_Page.ctor dm leaf) leaf.id = leaf) ∧
    (∀ node : Internal, Internal.ctor dm (RAW_Internal_Page.ctor dm node) node.id = node) := by
  constructor
  · intro leaf
    simp [Leaf.ctor, RAW_Leaf_Page.ctor, Node.ctor, RAW_BPT_Page.ctor, h]
  · intro node
    obtain ⟨base, leftmost, ⟨pairs, hlen⟩⟩ := node
    simp only [Internal.ctor, RAW_Internal_Page.ctor, Node.ctor, RAW_BPT_Page.ctor, h,
      List.map_map]
    congr 2
    conv_rhs => rw [← List.map_id pairs]
    apply List.map_congr_left
    intro p _
    simp [h]

/-- Witness of C7: the disk manager with 4096-byte pages. -/
theorem codec_round_trip_witness :
    (∀ p, example_disk_mgr.get_pageid (example_disk_mgr.get_offset p) = p) ∧
    ((∀ leaf : Leaf, Leaf.ctor example_disk_mgr (RAW_Leaf_Page.ctor example_disk_mgr leaf) leaf.id
        = leaf) ∧
      (∀ node : Internal,
        Internal.ctor example_disk_mgr (RAW_Internal_Page.ctor example_disk_mgr node) node.id
          = node)) :=
  ⟨fun p => by simp [example_disk_mgr],
    codec_round_trip example_disk_mgr (fun p => by simp [example_disk_mgr])⟩

/-- C8: inserting an absent key into a full leaf root is claimed to split the leaf and to
make the root an internal node.  With `ORDER_LEAF = 4`, inserting 15 into the leaf root
holding 5, 10, 20 writes the record in place and the root stays that leaf, its key count
still 3; inserting 15 into the leaf root holding 5, 10, 20, 25 takes the split branch,
which has no result. -/
theorem insert_into_full_leaf_root_does_not_split :
    (BPT._insert 4 4 1 (leaf_tree leaf_5_10_20) 15 7).map (fun r => r.1.root)
      = some (some (.leaf (example_leaf 1 0 3
          [{ key := 5, value := 50 }, { key := 10, value := 100 }, { key := 15, value := 7 },
            { key := 20, value := 200 }]))) ∧
    BPT.insert_into_leaf_branch 4 leaf_5_10_20_25 15 = some .split ∧
    (BPT._insert 4 4 1 (leaf_tree leaf_5_10_20_25) 15 7).isNone = true := by
  decide

/-- C9: `_insert` into an empty tree is claimed to succeed and to leave a one-record leaf
root.  With a null root `_insert` has no result for any key and value (it dereferences
the root), whereas `_find` tests the root and reports not-found. -/
theorem insert_into_empty_tree_has_no_result (ORDER_LEAF ORDER_INTERNAL fuel : Nat)
    (dm : DiskMgr) (k : key_t) (v : value_t) :
    BPT._insert ORDER_LEAF ORDER_INTERNAL fuel { root := none, disk_mgr := dm } k v = none ∧
    BPT._find fuel { root := none, disk_mgr := dm } k = some none :=
  ⟨rfl, rfl⟩

/-- C10: fan-out invariant.  When every stored page other than the page of the root
holds between `⌈ORDER/2⌉ - 1` and `ORDER - 1` keys (`ORDER_LEAF` for a leaf,
`ORDER_INTERNAL` for an internal node), the same holds of the tree `_insert` returns,
whenever it returns one, and of the tree after `_delete`. -/
theorem fan_out_invariant_preserved (ORDER_LEAF ORDER_INTERNAL fuel : Nat) (t : BPT)
    (k : key_t) (v : value_t) (h : t.fan_out_invariant ORDER_LEAF ORDER_INTERNAL) :
    (∀ t1 r, BPT._insert ORDER_LEAF ORDER_INTERNAL fuel t k v = some (t1, r) →
      t1.fan_out_invariant ORDER_LEAF ORDER_INTERNAL) ∧
    (BPT._delete t k).1.fan_out_invariant ORDER_LEAF ORDER_INTERNAL := by
  refine ⟨?_, h⟩
  intro t1 r hins
  obtain ⟨root, dm⟩ := t
  unfold BPT._insert at hins
  rcases root with _ | ⟨obj | obj⟩
  · simp at hins
  · dsimp only at hins
    split at hins
    · cases hleaf : BPT.insert_into_leaf ORDER_LEAF dm obj k v with
      | none => simp [hleaf] at hins
      | some res =>
        obtain ⟨written, dm1, kp⟩ := res
        simp only [hleaf, Option.some.injEq, Prod.mk.injEq] at hins
        obtain ⟨hnode, hdm⟩ := (insert_into_leaf_effect ORDER_LEAF dm obj k v written dm1 kp hleaf).2
        rw [← hins.1]
        intro id page hread hroot
        have hid : written.id = obj.id := by
          show written.toNode.id = obj.toNode.id
          rw [hnode]
        have hne : id ≠ obj.id := by
          intro hc
          apply hroot
          simp [NodePtr.id, hid, hc]
        apply h id page
        · rcases hdm with hdm | hdm
          · simpa [hdm] using hread
          · simp only [hdm, Leaf.write, DiskMgr.read_write, hid, if_neg hne] at hread
            exact hread
        · simpa [NodePtr.id] using fun hc => hne hc.symm
    · simp at hins
  · dsimp only at hins
    split at hins
    · simp at hins
    · cases hint : BPT.insert_into_internal ORDER_LEAF ORDER_INTERNAL fuel dm obj k v with
      | none => simp [hint] at hins
      | some res =>
        simp only [hint, Option.some.injEq, Prod.mk.injEq] at hins
        have hhdr := insert_into_internal_headers ORDER_LEAF ORDER_INTERNAL fuel dm obj k v res hint
        rw [← hins.1]
        intro id page hread hroot
        have hid := hhdr id
        simp only at hread
        rw [hread] at hid
        cases hold : dm.read id with
        | none => simp [hold] at hid
        | some page0 =>
          simp only [hold, Option.map_some', Option.some.injEq] at hid
          exact fan_out_ok_congr ORDER_LEAF ORDER_INTERNAL page page0 hid (h id page0 hold hroot)

/-- Witness of C10: inserting key 7 into the two-leaf tree with both orders 4. -/
theorem fan_out_invariant_preserved_witness :
    two_leaf_tree.fan_out_invariant 4 4 ∧
    (BPT._insert 4 4 1 two_leaf_tree 7 70).isSome = true ∧
    ((∀ t1 r, BPT._insert 4 4 1 two_leaf_tree 7 70 = some (t1, r) →
        t1.fan_out_invariant 4 4) ∧
      (BPT._delete two_leaf_tree 7).1.fan_out_invariant 4 4) :=
  ⟨two_leaf_tree_fan_out, by decide,
    fan_out_invariant_preserved 4 4 1 two_leaf_tree 7 70 two_leaf_tree_fan_out⟩

/-- C11 as stated fails: a page whose header violates the structural invariants is
claimed to make `get_node` fail.  The corrupt leaf page claims 40 keys in 31 slots and
its first two keys are out of order, and `get_node` returns the node decoded from it. -/
theorem get_node_accepts_corrupt_page :
    corrupt_leaf_page.records.length < corrupt_leaf_page.num_of_keys ∧
    ¬ ((corrupt_leaf_page.records.take 2).map Record.key).Pairwise (fun a b => a < b) ∧
    BPT.get_node corrupt_disk_mgr 1
      = some (.leaf (Leaf.ctor corrupt_disk_mgr corrupt_leaf_page 1)) := by
  decide

/-- C11 amended: `get_node` makes no structural check.  For every stored page, whatever
key count its header claims and whatever the order of its keys, `get_node` returns
exactly the node decoded from the page under the id, a `Leaf` when the leaf flag is set
and an `Internal` otherwise, and the base-class fields of that node are those of the
header (the key count is the one the header claims).  The hypothesis on the flag holds
of every page there is: it only rules out the values of `page_t` that pair the bytes of
one layout with the flag of the other. -/
theorem get_node_returns_without_validation (dm : DiskMgr) (id : pageid_t) (page : page_t)
    (hread : dm.read id = some page) (hflag : page.flag_matches_layout = true) :
    BPT.get_node dm id = some (page.decode dm id) ∧
      (page.decode dm id).toNode = Node.ctor dm page.header id := by
  cases page with
  | leaf raw =>
    simp only [page_t.flag_matches_layout] at hflag
    exact ⟨by simp [BPT.get_node, hread, hflag, page_t.decode], rfl⟩
  | internal raw =>
    simp only [page_t.flag_matches_layout, Bool.not_eq_true'] at hflag
    exact ⟨by simp [BPT.get_node, hread, hflag, page_t.decode], rfl⟩

/-- Witness of C11 amended: the corrupt leaf page stored under id 1 is returned as the
leaf decoded from it, its key count 40. -/
theorem get_node_returns_without_validation_witness :
    corrupt_disk_mgr.read 1 = some (.leaf corrupt_leaf_page) ∧
    (page_t.leaf corrupt_leaf_page).flag_matches_layout = true ∧
    (BPT.get_node corrupt_disk_mgr 1
        = some ((page_t.leaf corrupt_leaf_page).decode corrupt_disk_mgr 1) ∧
      ((page_t.leaf corrupt_leaf_page).decode corrupt_disk_mgr 1).toNode
        = Node.ctor corrupt_disk_mgr (page_t.leaf corrupt_leaf_page).header 1) :=
  ⟨by decide, by decide,
    get_node_returns_without_validation corrupt_disk_mgr 1 (.leaf corrupt_leaf_page)
      (by decide) (by decide)⟩

/-- C12: in-place insertion is claimed to raise the key count to `n + 1` and to move every
record right of the insertion point by exactly one slot.  Inserting (5, 7) at index 0 into
the leaf holding 10, 20, 30 takes the in-place branch and leaves the key count at 3 and
the slots 5, 10, 10, 10: slots 2 and 3 hold the old record 0, not the old records 1
and 2. -/
theorem insert_into_leaf_in_place_loses_records :
    leaf_10_20_30.sorted ∧ (5 : key_t) ∉ leaf_10_20_30.keys ∧
    leaf_10_20_30.num_of_keys + 1 < 32 ∧
    BPT.find_lower_bound_in_leaf leaf_10_20_30 5 = some 0 ∧
    BPT.insert_into_leaf_branch 32 leaf_10_20_30 5 = some .in_place ∧
    (BPT.insert_into_leaf 32 example_disk_mgr leaf_10_20_30 5 7).map
        (fun r => (r.1.num_of_keys, r.1.records.take 4))
      = some (3, [{ key := 5, value := 7 }, { key := 10, value := 100 },
          { key := 10, value := 100 }, { key := 10, value := 100 }]) := by
  decide

/-- C13: leaf lower bound.  For every leaf whose occupied keys are sorted (non-decreasing)
and whose key count is within its array, and for every key `k`,
`find_lower_bound_in_leaf` returns an index `i` with `i ≤ num_of_keys` such that every
occupied record before `i` has a key less than `k` and every occupied record at or after
`i` has a key not less than `k`; it is `num_of_keys` when all occupied keys are less
than `k`. -/
theorem find_lower_bound_in_leaf_is_lower_bound (page : Leaf) (k : key_t)
    (hs : page.keys.Pairwise (fun a b => a ≤ b))
    (hcap : page.num_of_keys ≤ page.records.length) :
    ∃ i, BPT.find_lower_bound_in_leaf page k = some i ∧ i ≤ page.num_of_keys ∧
      (∀ j r, j < i → page.records[j]? = some r → r.key < k) ∧
      (∀ j r, i ≤ j → j < page.num_of_keys → page.records[j]? = some r → k ≤ r.key) ∧
      ((∀ r ∈ page.occupied, r.key < k) → i = page.num_of_keys) := by
  have hmono : ∀ a b, a ≤ b → b < page.num_of_keys → ∀ ka kb,
      (page.records[a]?).map Record.key = some ka →
      (page.records[b]?).map Record.key = some kb → ka ≤ kb := by
    intro a b hab hb ka kb hka hkb
    rcases Nat.eq_or_lt_of_le hab with h | h
    · subst h
      rw [hka] at hkb
      exact le_of_eq (Option.some.inj hkb)
    · exact Leaf.keyAt_pairwise (fun a b => a ≤ b) page hs hcap a b h hb ka kb hka hkb
  obtain ⟨i, hi, hin, hlo, hhi⟩ := lower_bound_partition
    (fun i => (page.records[i]?).map Record.key) k page.num_of_keys
    (Leaf.keyAt_read page hcap) hmono page.num_of_keys 0 page.num_of_keys
    (le_refl _) (by omega) (fun i hi => absurd hi (Nat.not_lt_zero i))
    (fun i h1 h2 => absurd h2 (by omega))
  refine ⟨i, hi, hin, ?_, ?_, ?_⟩
  · intro j r hj hr
    exact hlo j hj r.key (by simp [hr])
  · intro j r hij hj hr
    exact hhi j hij hj r.key (by simp [hr])
  · intro hall
    by_contra hne
    have hlt : i < page.num_of_keys := by omega
    have hlen : i < page.records.length := by omega
    have hr := List.getElem?_eq_getElem hlen
    have hm := Leaf.mem_occupied_of_getElem? page i _ hlt hr
    have h1 := hall _ hm
    have h2 := hhi i (le_refl _) hlt (page.records[i]).key (by simp [hr])
    exact lt_irrefl k (lt_of_le_of_lt h2 h1)

/-- Witness of C13: the leaf holding 10, 20, 30 and the key 20. -/
theorem find_lower_bound_in_leaf_is_lower_bound_witness :
    leaf_10_20_30.keys.Pairwise (fun a b => a ≤ b) ∧
    leaf_10_20_30.num_of_keys ≤ leaf_10_20_30.records.length ∧
    ∃ i, BPT.find_lower_bound_in_leaf leaf_10_20_30 20 = some i ∧
      i ≤ leaf_10_20_30.num_of_keys ∧
      (∀ j r, j < i → leaf_10_20_30.records[j]? = some r → r.key < 20) ∧
      (∀ j r, i ≤ j → j < leaf_10_20_30.num_of_keys →
        leaf_10_20_30.records[j]? = some r → 20 ≤ r.key) ∧
      ((∀ r ∈ leaf_10_20_30.occupied, r.key < 20) → i = leaf_10_20_30.num_of_keys) :=
  ⟨by decide, by decide,
    find_lower_bound_in_leaf_is_lower_bound leaf_10_20_30 20 (by decide) (by decide)⟩

/-- C14: `find_child` is claimed to return the leftmost child when no occupied separator
is at least `k`.  In the root of the two-leaf tree the only separator is 10 and the
leftmost child is page 1; for key 15 no separator qualifies, and `find_child` returns
page 0, the child reference left in the unused slot 1.  For key 5, where separator 10
qualifies, it returns the child paired with it, page 2. -/
theorem find_child_skips_leftmost_child :
    two_leaf_root.keys = [10] ∧ two_leaf_root.leftmost_page = 1 ∧
    BPT.find_lower_bound_in_internal two_leaf_root 15 = some 1 ∧
    (two_leaf_root.key_ptr_pairs.val[1]?).map KeyPtr.nxt_page = some 0 ∧
    BPT.find_child two_leaf_root 15 = some 0 ∧
    BPT.find_child two_leaf_root 5 = some 2 := by
  decide

/-- C15: lookup in a single-leaf tree.  For every tree whose root is a leaf with strictly
increasing occupied keys (key count within the array) and every key `k`, `_find(k)`
returns the value of the occupied record with key `k` when there is one and not-found
otherwise; the unused slots, whatever they hold, play no part. -/
theorem find_in_single_leaf_tree (fuel : Nat) (dm : DiskMgr) (page : Leaf) (k : key_t)
    (hflag : page.is_leaf = true) (hs : page.sorted)
    (hcap : page.num_of_keys ≤ page.records.length) :
    BPT._find fuel { root := some (.leaf page), disk_mgr := dm } k
      = some ((page.occupied.find? (fun r => decide (r.key = k))).map Record.value) := by
  have hleaf : BPT.find_leaf dm k fuel (.leaf page) = some page := by
    cases fuel <;> simp [BPT.find_leaf, hflag]
  simp only [BPT._find, hleaf]
  cases hf : page.occupied.find? (fun r => decide (r.key = k)) with
  | some r =>
    have hkey : r.key = k := by simpa using List.find?_some hf
    obtain ⟨i, hi, hr⟩ := Leaf.occupied_getElem? page r (List.mem_of_find?_eq_some hf)
    have hidx := find_lower_bound_in_leaf_of_mem page hs hcap i hi r hr
    rw [hkey] at hidx
    simp [BPT.find_in_leaf, hidx, hr, Nat.ne_of_lt hi, hkey]
  | none =>
    have hnone : ∀ x ∈ page.occupied, ¬ x.key = k := by
      simpa using List.find?_eq_none.mp hf
    obtain ⟨idx, hidx, hle⟩ := find_lower_bound_in_leaf_le page k hcap
    by_cases hn : idx = page.num_of_keys
    · simp [BPT.find_in_leaf, hidx, hn]
    · have hlt : idx < page.records.length := by omega
      have hr := List.getElem?_eq_getElem hlt
      have hm := Leaf.mem_occupied_of_getElem? page idx _ (by omega) hr
      simp [BPT.find_in_leaf, hidx, hn, hr, hnone _ hm]

/-- Witness of C15: looking up 0, the key left in the unused slots, in the leaf holding
10, 20, 30. -/
theorem find_in_single_leaf_tree_witness :
    leaf_10_20_30.is_leaf = true ∧ leaf_10_20_30.sorted ∧
    leaf_10_20_30.num_of_keys ≤ leaf_10_20_30.records.length ∧
    BPT._find 1 { root := some (.leaf leaf_10_20_30), disk_mgr := example_disk_mgr } 0
      = some ((leaf_10_20_30.occupied.find? (fun r => decide (r.key = 0))).map Record.value) :=
  ⟨by decide, by decide, by decide,
    find_in_single_leaf_tree 1 example_disk_mgr leaf_10_20_30 0
      (by decide) (by decide) (by decide)⟩

/-- C16: a key that no occupied record carries is claimed never to take the duplicate
path.  The empty leaf has room and holds no key, its unused slot 0 holds key 0, and
`insert_into_leaf(0, 7)` takes the duplicate path: the leaf is returned unchanged and
key 0 is not inserted. -/
theorem insert_into_leaf_spurious_duplicate :
    leaf_empty.sorted ∧ leaf_empty.num_of_keys + 1 < 32 ∧ (0 : key_t) ∉ leaf_empty.keys ∧
    BPT.find_lower_bound_in_leaf leaf_empty 0 = some leaf_empty.num_of_keys ∧
    BPT.insert_into_leaf_branch 32 leaf_empty 0 = some .duplicate ∧
    (BPT.insert_into_leaf 32 example_disk_mgr leaf_empty 0 7).map (fun r => r.1)
      = some leaf_empty := by
  decide

/-- C18: for every internal node whose key count is within its 248 slots and every key,
`find_lower_bound_in_internal` returns an index `idx` from 0 to `num_of_keys`, so the
test `idx < 0` of `find_child` never holds: the result of `find_child` is
`key_ptr_pairs[idx].nxt_page`, it does not depend on `leftmost_page`, and when every
separator is less than the key `idx` is `num_of_keys`, the slot one past the occupied
pairs. -/
theorem find_child_never_leftmost (page : Internal) (k : key_t)
    (hcap : page.num_of_keys ≤ INTERNAL_SLOTS) :
    ∃ idx, BPT.find_lower_bound_in_internal page k = some idx ∧ idx ≤ page.num_of_keys ∧
      BPT.find_child page k = (page.key_ptr_pairs.val[idx]?).map KeyPtr.nxt_page ∧
      (∀ other, BPT.find_child { page with leftmost_page := other } k
        = BPT.find_child page k) ∧
      ((∀ s ∈ page.keys, s < k) → idx = page.num_of_keys) := by
  have hlen : page.key_ptr_pairs.val.length = INTERNAL_SLOTS := page.key_ptr_pairs.property
  have hread : ∀ i, i < page.num_of_keys →
      ∃ key, (page.key_ptr_pairs.val[i]?).map KeyPtr.key = some key := by
    intro i hi
    have hlt : i < page.key_ptr_pairs.val.length := by omega
    exact ⟨(page.key_ptr_pairs.val[i]).key, by simp [List.getElem?_eq_getElem hlt]⟩
  obtain ⟨idx, hidx, _, hle⟩ := lower_bound_bounds
    (fun i => (page.key_ptr_pairs.val[i]?).map KeyPtr.key) k page.num_of_keys hread
    page.num_of_keys 0 page.num_of_keys (le_refl _) (by omega)
  have hfind : BPT.find_lower_bound_in_internal page k = some idx := hidx
  have hnonneg : ¬ ((idx : Int) < 0) := not_lt.mpr (Int.natCast_nonneg idx)
  have hchild : BPT.find_child page k = (page.key_ptr_pairs.val[idx]?).map KeyPtr.nxt_page := by
    simp only [BPT.find_child, hfind, if_neg hnonneg]
  refine ⟨idx, hfind, by omega, hchild, ?_, ?_⟩
  · intro other
    have hsame : BPT.find_lower_bound_in_internal { page with leftmost_page := other } k
        = some idx := hidx
    simp only [BPT.find_child, hsame, hfind, if_neg hnonneg]
  · intro hall
    have hend := lower_bound_all_lt (fun i => (page.key_ptr_pairs.val[i]?).map KeyPtr.key) k
      page.num_of_keys 0 page.num_of_keys (le_refl _) (by
        intro i _ hi
        have hi1 : i < page.num_of_keys := by omega
        have hlt : i < page.key_ptr_pairs.val.length := by omega
        refine ⟨(page.key_ptr_pairs.val[i]).key, by simp [List.getElem?_eq_getElem hlt], ?_⟩
        apply hall
        have hm : page.key_ptr_pairs.val[i] ∈ page.occupied := by
          apply List.getElem?_mem (n := i)
          show (page.key_ptr_pairs.val.take page.num_of_keys)[i]? = _
          rw [List.getElem?_take_of_lt hi1]
          exact List.getElem?_eq_getElem hlt
        exact List.mem_map_of_mem KeyPtr.key hm)
    rw [hidx] at hend
    simpa using hend

/-- Witness of C18: the root of the two-leaf tree and the key 15. -/
theorem find_child_never_leftmost_witness :
    two_leaf_root.num_of_keys ≤ INTERNAL_SLOTS ∧
    ∃ idx, BPT.find_lower_bound_in_internal two_leaf_root 15 = some idx ∧
      idx ≤ two_leaf_root.num_of_keys ∧
      BPT.find_child two_leaf_root 15
        = (two_leaf_root.key_ptr_pairs.val[idx]?).map KeyPtr.nxt_page ∧
      (∀ other, BPT.find_child { two_leaf_root with leftmost_page := other } 15
        = BPT.find_child two_leaf_root 15) ∧
      ((∀ s ∈ two_leaf_root.keys, s < 15) → idx = two_leaf_root.num_of_keys) :=
  ⟨by decide, find_child_never_leftmost two_leaf_root 15 (by decide)⟩

end JiDB
